import Mathlib

/-!
Shallow embedding of `TestSSO.cpp` (GiovanniDicanio/TestSSO), a benchmark that
builds a shuffled corpus of 200,000 short wide strings, and for each of two
string container strategies (ATL `CStringW`, heap-backed; STL `std::wstring`,
inline-buffer SSO) repeatedly times a `push_back` loop followed by `std::sort`,
printing each timing sample.

Modelling conventions:
- a wide string (`wchar_t` sequence) is a `List Char`; a `const wchar_t *`
  pointer to an immutable NUL-terminated buffer is identified with the
  character sequence it points to;
- `double` arithmetic is modelled exactly over `ℚ`;
- the impure platform reads (`QueryPerformanceCounter` / `Frequency`) are
  parameters of the functions that consume them.
-/

/-- Numeric code-unit comparison of two wide strings, `≤` of the lexicographic
order used by both `std::wstring::operator<` and `CStringW` comparison:
compare code units left to right; a strict prefix is smaller. -/
def lexLe : List Char → List Char → Bool
  | [], _ => true
  | _ :: _, [] => false
  | a :: as, b :: bs =>
    if a.toNat < b.toNat then true
    else if b.toNat < a.toNat then false
    else lexLe as bs

/-- The lexicographic `≤` on wide strings as a relation. -/
def lexLeRel (a b : List Char) : Prop := lexLe a b = true

instance : DecidableRel lexLeRel := fun a b =>
  inferInstanceAs (Decidable (lexLe a b = true))

/-- The two string container strategies the benchmark instantiates
`MeasurePushBackAndSort` with: ATL `CStringW` (always heap-backed) and STL
`std::wstring` (small-string optimization). -/
inductive Strategy where
  | atl
  | stl
deriving DecidableEq

/-- Constructing a string of the given strategy from a `const wchar_t *`:
both `CStringW(ptr)` and `wstring(ptr)` copy the pointed-to NUL-terminated
character sequence; the value they hold is that sequence. -/
def stringFrom : Strategy → List Char → List Char
  | _, p => p

theorem stringFrom_eq (strat : Strategy) (p : List Char) : stringFrom strat p = p := by
  cases strat <;> rfl

/-- `MillisecondsFromDeltaCounter`: `(finish - start) * 1000.0 / Frequency()`.
The counter frequency, an impure platform read in the source, is the `freq`
parameter; `double` is modelled exactly over `ℚ`. -/
def MillisecondsFromDeltaCounter (freq start finish : ℤ) : ℚ :=
  ((finish : ℚ) - (start : ℚ)) * 1000 / (freq : ℚ)

/-- `PerfData`: the results of a single test run. -/
structure PerfData where
  PushBackTimeMs : ℚ
  SortTimeMs : ℚ
  Description : String
deriving DecidableEq

/-- Most-significant-first decimal digits of `n`, as characters; the loop of
`std::to_wstring`.  `fuel ≥ n` suffices for the recursion. -/
def decCharsAux : Nat → Nat → List Char → List Char
  | 0, _, acc => acc
  | fuel + 1, n, acc =>
    if n / 10 = 0 then Nat.digitChar (n % 10) :: acc
    else decCharsAux fuel (n / 10) (Nat.digitChar (n % 10) :: acc)

/-- The decimal representation produced by `std::to_wstring` on a non-negative
value: no sign, no leading zeros, `"0"` for zero. -/
def decStr (n : Nat) : List Char := decCharsAux (n + 1) n []

/-- The `i`-th corpus string: `L"#" + to_wstring(i)`. -/
def corpusElem (i : Nat) : List Char := '#' :: decStr i

/-- The pre-shuffle corpus built by the loop in `main`:
`for (i = 0; i < n; ++i) v.push_back(L"#" + to_wstring(i))`. -/
def buildCorpus (n : Nat) : List (List Char) := (List.range n).map corpusElem

/-- `N = 200 * 1000`, the corpus size used by `main`. -/
def numStrings : Nat := 200 * 1000

--------------------------------------------------------------------------------
-- mt19937 and std::shuffle
--------------------------------------------------------------------------------

/-- State of the `std::mt19937` engine: 624 32-bit words plus the next-output
index. -/
structure MT where
  state : List Nat
  idx : Nat

/-- One step of mt19937 state initialization:
`mt[i] = (1812433253 * (mt[i-1] ^ (mt[i-1] >> 30)) + i) mod 2^32`. -/
def mtNextWord (prev i : Nat) : Nat :=
  (1812433253 * (prev ^^^ (prev >>> 30)) + i) % 4294967296

/-- Generates `count` further initialization words starting at index `i`. -/
def mtInitAux : Nat → Nat → Nat → List Nat
  | 0, _, _ => []
  | count + 1, prev, i =>
    let w := mtNextWord prev i
    w :: mtInitAux count w (i + 1)

/-- `std::mt19937 prng(seed)`: seeds the 624-word state and forces a twist
before the first output. -/
def mtInit (seed : Nat) : MT :=
  ⟨seed % 4294967296 :: mtInitAux 623 (seed % 4294967296) 1, 624⟩

/-- One in-place update of the mt19937 twist at index `i`. -/
def twistStep (s : List Nat) (i : Nat) : List Nat :=
  let cur := s.getD i 0
  let nxt := s.getD ((i + 1) % 624) 0
  let far := s.getD ((i + 397) % 624) 0
  let y := (cur &&& 2147483648) ||| (nxt &&& 2147483647)
  let v := (far ^^^ (y >>> 1)) ^^^ (if y % 2 = 1 then 2567483615 else 0)
  s.set i v

/-- The full mt19937 twist: 624 sequential in-place updates. -/
def twistAll (s : List Nat) : List Nat := (List.range 624).foldl twistStep s

/-- The mt19937 output tempering. -/
def temper (y0 : Nat) : Nat :=
  let y1 := y0 ^^^ (y0 >>> 11)
  let y2 := y1 ^^^ ((y1 <<< 7) &&& 2636928640)
  let y3 := y2 ^^^ ((y2 <<< 15) &&& 4022730752)
  y3 ^^^ (y3 >>> 18)

/-- Draws one 32-bit output from the engine, returning it with the
successor state. -/
def mtNext (g : MT) : Nat × MT :=
  let si := if g.idx ≥ 624 then (twistAll g.state, 0) else (g.state, g.idx)
  (temper (si.1.getD si.2 0), ⟨si.1, si.2 + 1⟩)

/-- Swaps the elements of `l` at positions `i` and `j` (no-op when either
index is out of range). -/
def listSwap {α : Type} (l : List α) (i j : Nat) : List α :=
  match l.get? i, l.get? j with
  | some x, some y => (l.set i y).set j x
  | _, _ => l

/-- Modelled from the spec: `std::shuffle(v.begin(), v.end(), prng)` — the
standard specifies a uniform Fisher–Yates-equivalent shuffle but leaves the
exact sequence of bounded draws implementation-defined.  Modelled as the
classic Fisher–Yates loop: for `i` from `n-1` down to `1`, swap `a[i]` with
`a[j]`, `j = next() % (i+1)` drawn from the seeded engine. -/
def fyDown {α : Type} : Nat → MT → List α → List α
  | 0, _, l => l
  | i + 1, g, l =>
    let p := mtNext g
    fyDown i p.2 (listSwap l (i + 1) (p.1 % (i + 2)))

/-- Shuffling a whole list with a seeded mt19937. -/
def shuffleList {α : Type} (seed : Nat) (l : List α) : List α :=
  fyDown (l.length - 1) (mtInit seed) l

/-- The shuffled corpus `main` builds: generate `numStrings` strings, then
shuffle them with `mt19937 prng(seed)`. The source seeds with 64. -/
def buildShuffled (seed : Nat) : List (List Char) :=
  shuffleList seed (buildCorpus numStrings)

/-- `s.c_str()`: the observing pointer into a string's immutable buffer,
identified with the character sequence it designates. -/
def cStr (s : List Char) : List Char := s

/-- The vector of observing pointers `main` builds from the shuffled corpus:
`for (s : shuffled) v.push_back(s.c_str())`. -/
def shuffledPtrsOf (shuffled : List (List Char)) : List (List Char) :=
  shuffled.map cStr

/-- The shuffled corpus of the actual run (`seed = 64`). -/
def corpusShuffled : List (List Char) := buildShuffled 64

/-- The pointer view passed to every benchmark invocation in `main`. -/
def ptrsView : List (List Char) := shuffledPtrsOf corpusShuffled

--------------------------------------------------------------------------------
-- Benchmark core
--------------------------------------------------------------------------------

/-- The `push_back` loop of `MeasurePushBackAndSort`: starting from a fresh
empty vector, append a string constructed from each pointer, in order. -/
def pushBackAll (strat : Strategy) (ptrs : List (List Char)) : List (List Char) :=
  ptrs.foldl (fun v p => v ++ [stringFrom strat p]) []

/-- The sort step: `sort(v.begin(), v.end())`.  `std::sort` is specified to
produce a lexicographically sorted permutation of the vector; modelled by
insertion sort under `lexLeRel`. -/
def sortContainer (v : List (List Char)) : List (List Char) :=
  List.insertionSort lexLeRel v

/-- `MeasurePushBackAndSort<StringT>(shuffled_ptrs, description)`.  The four
`Counter()` reads and the counter frequency are parameters (they are impure
platform reads in the source).  Returns the final container together with the
`PerfData` result; the source discards the container when the function
returns, exposed here so its contents can be specified. -/
def MeasurePushBackAndSort (strat : Strategy) (shuffled_ptrs : List (List Char))
    (description : String) (freq start1 finish1 start2 finish2 : ℤ) :
    List (List Char) × PerfData :=
  let v := pushBackAll strat shuffled_ptrs
  let push_back_time_ms := MillisecondsFromDeltaCounter freq start1 finish1
  let v2 := sortContainer v
  let sort_time_ms := MillisecondsFromDeltaCounter freq start2 finish2
  (v2, ⟨push_back_time_ms, sort_time_ms, description⟩)

--------------------------------------------------------------------------------
-- Report printer
--------------------------------------------------------------------------------

/-- Fractional decimal digits of `r / d` (`0 ≤ r < d`), at most `fuel` digits,
stopping at a zero remainder. -/
def fracDigits : Nat → Nat → Nat → List Char
  | 0, _, _ => []
  | _ + 1, 0, _ => []
  | fuel + 1, r, d => Nat.digitChar (r * 10 / d) :: fracDigits fuel (r * 10 % d) d

/-- `cout`'s default formatting of a non-negative `double`, modelled exactly
for the values with short terminating decimal expansions that arise in the
specification's examples (e.g. `1.5`, `2.25`). -/
def fmtDouble (q : ℚ) : String :=
  let n := q.num.toNat
  let d := q.den
  let intPart := String.mk (decStr (n / d))
  if n % d = 0 then intPart
  else intPart ++ "." ++ String.mk (fracDigits 6 (n % d) d)

/-- `PrintTime`: writes the sample's description line, the two metric lines
and a blank separator line to standard output; the returned string is the
text written. -/
def PrintTime (perf_data : PerfData) : String :=
  perf_data.Description ++ ":\n"
    ++ "  push_back : " ++ fmtDouble perf_data.PushBackTimeMs ++ " ms\n"
    ++ "  sort      : " ++ fmtDouble perf_data.SortTimeMs ++ " ms\n\n"

--------------------------------------------------------------------------------
-- Orchestration (main)
--------------------------------------------------------------------------------

/-- The six benchmark invocations of `main`, in source order: strategy and
label of each. -/
def mainCalls : List (Strategy × String) :=
  [(Strategy.atl, "ATL1"), (Strategy.stl, "STL1"),
   (Strategy.atl, "ATL2"), (Strategy.stl, "STL2"),
   (Strategy.atl, "ATL3"), (Strategy.stl, "STL3")]

/-- The timing sample produced by the `k`-th benchmark invocation ( `cs k`
supplies that invocation's four `Counter()` reads). -/
def runOne (freq : ℤ) (cs : Nat → ℤ × ℤ × ℤ × ℤ) (k : Nat)
    (call : Strategy × String) : PerfData :=
  (MeasurePushBackAndSort call.1 ptrsView call.2 freq
    (cs k).1 (cs k).2.1 (cs k).2.2.1 (cs k).2.2.2).2

/-- The benchmark section of `main`: each invocation's result is printed
immediately, before the next invocation runs. -/
def benchLoop (freq : ℤ) (cs : Nat → ℤ × ℤ × ℤ × ℤ) :
    Nat → List (Strategy × String) → String
  | _, [] => ""
  | k, c :: rest => PrintTime (runOne freq cs k c) ++ benchLoop freq cs (k + 1) rest

/-- Everything the benchmark section of `main` writes to standard output. -/
def mainBenchOutput (freq : ℤ) (cs : Nat → ℤ × ℤ × ℤ × ℤ) : String :=
  benchLoop freq cs 0 mainCalls

/-- The input sequence handed to each of the six invocations in `main`:
every call site passes the one `shuffled_ptrs` vector. -/
def mainRunInputs : List (List (List Char)) :=
  mainCalls.map (fun _ => ptrsView)

--------------------------------------------------------------------------------
-- The lexicographic order is total and transitive
--------------------------------------------------------------------------------

theorem lexLe_total : ∀ a b : List Char, lexLe a b = true ∨ lexLe b a = true
  | [], _ => Or.inl rfl
  | _ :: _, [] => Or.inr rfl
  | a :: as, b :: bs => by
    by_cases hab : a.toNat < b.toNat
    · exact Or.inl (by simp [lexLe, hab])
    · by_cases hba : b.toNat < a.toNat
      · exact Or.inr (by simp [lexLe, hba])
      · rcases lexLe_total as bs with h | h
        · exact Or.inl (by simp [lexLe, hab, hba, h])
        · exact Or.inr (by simp [lexLe, hab, hba, h])

theorem lexLe_trans : ∀ a b c : List Char,
    lexLe a b = true → lexLe b c = true → lexLe a c = true
  | [], _, _, _, _ => rfl
  | _ :: _, [], _, h, _ => by simp [lexLe] at h
  | _ :: _, _ :: _, [], _, h => by simp [lexLe] at h
  | a :: as, b :: bs, c :: cs, h₁, h₂ => by
    simp only [lexLe] at h₁ h₂ ⊢
    by_cases hbc : b.toNat < c.toNat
    · by_cases hab : a.toNat < b.toNat
      · simp [Nat.lt_trans hab hbc]
      · by_cases hba : b.toNat < a.toNat
        · simp [hab, hba] at h₁
        · have hac : a.toNat < c.toNat := by omega
          simp [hac]
    · by_cases hcb : c.toNat < b.toNat
      · simp [hbc, hcb] at h₂
      · simp [hbc, hcb] at h₂
        by_cases hab : a.toNat < b.toNat
        · have hac : a.toNat < c.toNat := by omega
          simp [hac]
        · by_cases hba : b.toNat < a.toNat
          · simp [hab, hba] at h₁
          · simp [hab, hba] at h₁
            have hac1 : ¬ a.toNat < c.toNat := by omega
            have hac2 : ¬ c.toNat < a.toNat := by omega
            simp [hac1, hac2]
            exact lexLe_trans as bs cs h₁ h₂

instance : IsTotal (List Char) lexLeRel := ⟨lexLe_total⟩

instance : IsTrans (List Char) lexLeRel := ⟨lexLe_trans⟩

theorem foldl_append_eq_map {α β : Type} (f : α → β) :
    ∀ (l : List α) (acc : List β),
      l.foldl (fun v p => v ++ [f p]) acc = acc ++ l.map f
  | [], acc => by simp
  | a :: t, acc => by
    have ih := foldl_append_eq_map f t (acc ++ [f a])
    simp only [List.foldl_cons, List.map_cons]
    rw [ih, List.append_assoc]
    rfl

theorem pushBackAll_eq (strat : Strategy) (ptrs : List (List Char)) :
    pushBackAll strat ptrs = ptrs.map (stringFrom strat) := by
  unfold pushBackAll
  rw [foldl_append_eq_map]
  simp

/-- C1: after the sort step of `MeasurePushBackAndSort`, for either container
strategy and any input reference sequence, the container is sorted in
non-decreasing lexicographic order and holds exactly the multiset of elements
inserted by the push_back loop (no element lost, none duplicated). -/
theorem measure_sorted_and_perm (strat : Strategy) (ptrs : List (List Char))
    (d : String) (freq a b c e : ℤ) :
    List.Sorted lexLeRel (MeasurePushBackAndSort strat ptrs d freq a b c e).1 ∧
    (MeasurePushBackAndSort strat ptrs d freq a b c e).1.Perm
      (ptrs.map (stringFrom strat)) := by
  constructor
  · exact List.sorted_insertionSort lexLeRel (pushBackAll strat ptrs)
  · rw [← pushBackAll_eq strat ptrs]
    exact List.perm_insertionSort lexLeRel (pushBackAll strat ptrs)

/-- C5: on the reference sequence `["#2", "#0", "#1"]`, for either container
strategy, the container after the sort step iterates as `["#0", "#1", "#2"]`
and the returned sample's `Description` equals the label passed in. -/
theorem runner_concrete_scenario (freq a b c e : ℤ) :
    ((MeasurePushBackAndSort Strategy.atl [['#', '2'], ['#', '0'], ['#', '1']]
          "lbl" freq a b c e).1 = [['#', '0'], ['#', '1'], ['#', '2']] ∧
      (MeasurePushBackAndSort Strategy.atl [['#', '2'], ['#', '0'], ['#', '1']]
          "lbl" freq a b c e).2.Description = "lbl") ∧
    ((MeasurePushBackAndSort Strategy.stl [['#', '2'], ['#', '0'], ['#', '1']]
          "lbl" freq a b c e).1 = [['#', '0'], ['#', '1'], ['#', '2']] ∧
      (MeasurePushBackAndSort Strategy.stl [['#', '2'], ['#', '0'], ['#', '1']]
          "lbl" freq a b c e).2.Description = "lbl") := by
  exact ⟨⟨rfl, rfl⟩, rfl, rfl⟩

--------------------------------------------------------------------------------
-- Decimal strings: relation to Nat.digits, injectivity, length bound
--------------------------------------------------------------------------------

theorem decCharsAux_eq_digits :
    ∀ (fuel n : Nat) (acc : List Char), 0 < n → n ≤ fuel →
      decCharsAux fuel n acc = (Nat.digits 10 n).reverse.map Nat.digitChar ++ acc
  | 0, _, _, h1, h2 => by omega
  | fuel + 1, n, acc, h1, _ => by
    have hd : Nat.digits 10 n = n % 10 :: Nat.digits 10 (n / 10) :=
      Nat.digits_def' (by norm_num) h1
    rw [hd]
    simp only [decCharsAux, List.reverse_cons, List.map_append, List.map_cons,
      List.map_nil]
    by_cases hq : n / 10 = 0
    · rw [if_pos hq, hq]
      simp
    · rw [if_neg hq]
      have hlt : n / 10 < n := Nat.div_lt_self h1 (by norm_num)
      rw [decCharsAux_eq_digits fuel (n / 10) _ (Nat.pos_of_ne_zero hq) (by omega)]
      simp

theorem decStr_eq_digits (n : Nat) (h : 0 < n) :
    decStr n = (Nat.digits 10 n).reverse.map Nat.digitChar := by
  unfold decStr
  rw [decCharsAux_eq_digits (n + 1) n [] h (by omega)]
  simp

theorem digitChar_inj :
    ∀ d₁ < 10, ∀ d₂ < 10, Nat.digitChar d₁ = Nat.digitChar d₂ → d₁ = d₂ := by
  decide

theorem digits_reverse_lt (k : Nat) : ∀ x ∈ (Nat.digits 10 k).reverse, x < 10 :=
  fun x hx => Nat.digits_lt_base (by norm_num) (List.mem_reverse.mp hx)

theorem map_digitChar_inj :
    ∀ (l₁ l₂ : List Nat), (∀ x ∈ l₁, x < 10) → (∀ x ∈ l₂, x < 10) →
      l₁.map Nat.digitChar = l₂.map Nat.digitChar → l₁ = l₂
  | [], [], _, _, _ => rfl
  | [], _ :: _, _, _, h => by simp at h
  | _ :: _, [], _, _, h => by simp at h
  | a :: t₁, b :: t₂, h₁, h₂, h => by
    simp only [List.map_cons, List.cons.injEq] at h
    have ha : a = b := digitChar_inj a (h₁ a (by simp)) b (h₂ b (by simp)) h.1
    have ht := map_digitChar_inj t₁ t₂ (fun x hx => h₁ x (by simp [hx]))
      (fun x hx => h₂ x (by simp [hx])) h.2
    rw [ha, ht]

theorem decStr_pos_ne_zeroStr (n : Nat) (hn : 0 < n) : decStr n ≠ decStr 0 := by
  intro h
  rw [decStr_eq_digits n hn] at h
  have hrev := map_digitChar_inj ((Nat.digits 10 n).reverse) [0]
    (digits_reverse_lt n) (by simp) h
  have hd : Nat.digits 10 n = [0] := by
    rw [← List.reverse_reverse (Nat.digits 10 n), hrev]
    rfl
  have hofd := Nat.ofDigits_digits 10 n
  rw [hd] at hofd
  simp [Nat.ofDigits] at hofd
  omega

theorem decStr_injective : Function.Injective decStr := by
  intro m n h
  rcases Nat.eq_zero_or_pos m with hm | hm <;> rcases Nat.eq_zero_or_pos n with hn | hn
  · omega
  · exact absurd h.symm (decStr_pos_ne_zeroStr n hn |>.imp (fun x => hm ▸ x))
  · exact absurd h (decStr_pos_ne_zeroStr m hm |>.imp (fun x => hn ▸ x))
  · rw [decStr_eq_digits m hm, decStr_eq_digits n hn] at h
    have hrev := map_digitChar_inj _ _ (digits_reverse_lt m) (digits_reverse_lt n) h
    have hdig : Nat.digits 10 m = Nat.digits 10 n := by
      rw [← List.reverse_reverse (Nat.digits 10 m), hrev, List.reverse_reverse]
    calc m = Nat.ofDigits 10 (Nat.digits 10 m) := (Nat.ofDigits_digits 10 m).symm
      _ = Nat.ofDigits 10 (Nat.digits 10 n) := by rw [hdig]
      _ = n := Nat.ofDigits_digits 10 n

theorem corpusElem_injective : Function.Injective corpusElem := by
  intro i j h
  simp only [corpusElem, List.cons.injEq] at h
  exact decStr_injective h.2

theorem buildCorpus_length (n : Nat) : (buildCorpus n).length = n := by
  simp [buildCorpus]

theorem buildCorpus_get? {i n : Nat} (h : i < n) :
    (buildCorpus n).get? i = some (corpusElem i) := by
  unfold buildCorpus
  rw [List.get?_map, List.get?_range h]
  rfl

theorem buildCorpus_nodup (n : Nat) : (buildCorpus n).Nodup :=
  (List.nodup_range n).map corpusElem_injective

theorem decStr_length_le (i : Nat) (h : i < 1000000) : (decStr i).length ≤ 6 := by
  rcases Nat.eq_zero_or_pos i with h0 | h0
  · subst h0
    decide
  · rw [decStr_eq_digits i h0]
    simp only [List.length_map, List.length_reverse]
    rw [Nat.digits_len 10 i (by norm_num) (by omega)]
    have hpow : (10 : Nat) ^ 6 = 1000000 := by norm_num
    have hlog : Nat.log 10 i < 6 := Nat.log_lt_of_lt_pow (by omega) (by omega)
    omega

/-- C2: the corpus built at program start has exactly `N = 200,000` elements;
before shuffling the element at index `i` is `'#'` followed by the decimal
representation of `i`; all elements are pairwise distinct. -/
theorem corpus_exact (i : Nat) (h : i < numStrings) :
    (buildCorpus numStrings).length = numStrings ∧
    (buildCorpus numStrings).get? i = some ('#' :: decStr i) ∧
    (buildCorpus numStrings).Nodup :=
  ⟨buildCorpus_length _, buildCorpus_get? h, buildCorpus_nodup _⟩

/-- Witness for C2 at the concrete index 3. -/
theorem corpus_exact_witness :
    3 < numStrings ∧
    ((buildCorpus numStrings).length = numStrings ∧
      (buildCorpus numStrings).get? 3 = some ('#' :: decStr 3) ∧
      (buildCorpus numStrings).Nodup) :=
  ⟨by decide, corpus_exact 3 (by decide)⟩

/-- C10: every string of the generated corpus is at most 7 characters long
(the marker plus at most 6 decimal digits, as all indices are below
200,000 < 10^6) — short enough for a typical inline-buffer threshold. -/
theorem corpus_strings_short :
    (buildCorpus numStrings).all (fun s => s.length ≤ 7) = true := by
  rw [List.all_eq_true]
  intro s hs
  simp only [buildCorpus, List.mem_map, List.mem_range] at hs
  obtain ⟨i, hi, rfl⟩ := hs
  simp only [decide_eq_true_eq, corpusElem, List.length_cons]
  have hb : i < 1000000 := by
    have : numStrings = 200000 := by decide
    omega
  have := decStr_length_le i hb
  omega

--------------------------------------------------------------------------------
-- The Fisher-Yates shuffle permutes its input
--------------------------------------------------------------------------------

theorem set_cons_perm {α : Type} :
    ∀ (t : List α) (m : Nat) (x y : α), t.get? m = some y →
      (y :: t.set m x).Perm (x :: t)
  | [], _, _, _, h => by simp at h
  | a :: t, 0, x, y, h => by
    obtain rfl : a = y := Option.some.inj h
    exact List.Perm.swap x a t
  | a :: t, m + 1, x, y, h => by
    have ih := set_cons_perm t m x y h
    have s1 : (y :: a :: t.set m x).Perm (a :: y :: t.set m x) := List.Perm.swap a y _
    have s2 : (a :: y :: t.set m x).Perm (a :: x :: t) := ih.cons a
    have s3 : (a :: x :: t).Perm (x :: a :: t) := List.Perm.swap x a t
    exact s1.trans (s2.trans s3)

theorem set_set_perm {α : Type} :
    ∀ (l : List α) (i j : Nat) (x y : α),
      l.get? i = some x → l.get? j = some y → ((l.set i y).set j x).Perm l
  | [], _, _, _, _, hi, _ => by simp at hi
  | a :: t, 0, 0, x, y, hi, hj => by
    obtain rfl : a = x := Option.some.inj hi
    obtain rfl : a = y := Option.some.inj hj
    exact List.Perm.refl _
  | a :: t, 0, m + 1, x, y, hi, hj => by
    obtain rfl : a = x := Option.some.inj hi
    exact set_cons_perm t m a y hj
  | a :: t, k + 1, 0, x, y, hi, hj => by
    obtain rfl : a = y := Option.some.inj hj
    exact set_cons_perm t k a x hi
  | a :: t, k + 1, m + 1, x, y, hi, hj =>
    (set_set_perm t k m x y hi hj).cons a

theorem listSwap_perm {α : Type} (l : List α) (i j : Nat) :
    (listSwap l i j).Perm l := by
  unfold listSwap
  split
  · next x y hi hj => exact set_set_perm l i j x y hi hj
  · exact List.Perm.refl l

theorem fyDown_perm {α : Type} : ∀ (i : Nat) (g : MT) (l : List α),
    (fyDown i g l).Perm l
  | 0, _, l => List.Perm.refl l
  | i + 1, g, l => by
    have ih := fyDown_perm i (mtNext g).2
      (listSwap l (i + 1) ((mtNext g).1 % (i + 2)))
    exact ih.trans (listSwap_perm l (i + 1) _)

theorem shuffleList_perm {α : Type} (seed : Nat) (l : List α) :
    (shuffleList seed l).Perm l :=
  fyDown_perm _ _ l

--------------------------------------------------------------------------------
-- Positions above the loop index are untouched
--------------------------------------------------------------------------------

theorem listSwap_get?_of_ne {α : Type} (l : List α) (i j p : Nat)
    (hpi : p ≠ i) (hpj : p ≠ j) : (listSwap l i j).get? p = l.get? p := by
  unfold listSwap
  split
  · next x y _ _ =>
    rw [List.get?_set_ne _ _ (Ne.symm hpj), List.get?_set_ne _ _ (Ne.symm hpi)]
  · rfl

theorem listSwap_get?_left {α : Type} (l : List α) (i j : Nat)
    (hi : i < l.length) (hj : j < l.length) :
    (listSwap l i j).get? i = l.get? j := by
  unfold listSwap
  rw [List.get?_eq_get hi, List.get?_eq_get hj]
  show ((l.set i (l.get ⟨j, hj⟩)).set j (l.get ⟨i, hi⟩)).get? i
    = some (l.get ⟨j, hj⟩)
  by_cases hij : i = j
  · subst hij
    rw [List.get?_set_eq_of_lt _ (by simpa using hi)]
  · rw [List.get?_set_ne _ _ (Ne.symm hij), List.get?_set_eq_of_lt _ hi]

theorem fyDown_get?_of_gt {α : Type} :
    ∀ (i : Nat) (g : MT) (l : List α) (p : Nat), i < p →
      (fyDown i g l).get? p = l.get? p
  | 0, _, _, _, _ => rfl
  | i + 1, g, l, p, hp => by
    have hj : (mtNext g).1 % (i + 2) < i + 2 := Nat.mod_lt _ (by omega)
    show (fyDown i (mtNext g).2
      (listSwap l (i + 1) ((mtNext g).1 % (i + 2)))).get? p = l.get? p
    rw [fyDown_get?_of_gt i _ _ p (by omega)]
    exact listSwap_get?_of_ne l (i + 1) _ p (by omega) (by omega)

theorem fyDown_succ {α : Type} (i : Nat) (g : MT) (l : List α) :
    fyDown (i + 1) g l
      = fyDown i (mtNext g).2 (listSwap l (i + 1) ((mtNext g).1 % (i + 2))) :=
  rfl

set_option maxRecDepth 100000 in
/-- C4: the shuffled sequence is a permutation of the pre-shuffle sequence —
for every seed and every input list the shuffle returns the same multiset —
and the actual run (corpus of 200,000 strings, seed 64) does not return the
identity order. -/
theorem shuffle_perm_and_nontrivial :
    (∀ (α : Type) (seed : Nat) (l : List α), (shuffleList seed l).Perm l) ∧
    buildShuffled 64 ≠ buildCorpus numStrings := by
  constructor
  · exact fun α seed l => shuffleList_perm seed l
  · intro hEq
    have hns : numStrings = 200000 := by decide
    have hlen : (buildCorpus numStrings).length = numStrings :=
      buildCorpus_length _
    have hL : buildShuffled 64
        = fyDown 199999 (mtInit 64) (buildCorpus numStrings) := by
      unfold buildShuffled shuffleList
      rw [hlen]
      have h1 : numStrings - 1 = 199999 := by decide
      rw [h1]
    have hsplit : (199999 : Nat) = 199998 + 1 := by norm_num
    have hstep : fyDown 199999 (mtInit 64) (buildCorpus numStrings)
        = fyDown 199998 (mtNext (mtInit 64)).2
            (listSwap (buildCorpus numStrings) 199999
              ((mtNext (mtInit 64)).1 % 200000)) := by
      rw [hsplit, fyDown_succ]
    have hj1lt : (mtNext (mtInit 64)).1 % 200000 < 200000 :=
      Nat.mod_lt _ (by omega)
    have hjne : (mtNext (mtInit 64)).1 % 200000 ≠ 199999 := by decide
    have hhigh : (fyDown 199998 (mtNext (mtInit 64)).2
        (listSwap (buildCorpus numStrings) 199999
          ((mtNext (mtInit 64)).1 % 200000))).get? 199999
        = (listSwap (buildCorpus numStrings) 199999
            ((mtNext (mtInit 64)).1 % 200000)).get? 199999 :=
      fyDown_get?_of_gt 199998 _ _ 199999 (by omega)
    have hswap : (listSwap (buildCorpus numStrings) 199999
        ((mtNext (mtInit 64)).1 % 200000)).get? 199999
        = (buildCorpus numStrings).get? ((mtNext (mtInit 64)).1 % 200000) :=
      listSwap_get?_left _ _ _ (by rw [hlen, hns]; omega)
        (by rw [hlen, hns]; exact hj1lt)
    have hchain : (buildShuffled 64).get? 199999
        = (buildCorpus numStrings).get? ((mtNext (mtInit 64)).1 % 200000) := by
      rw [hL, hstep, hhigh, hswap]
    rw [hEq] at hchain
    rw [buildCorpus_get? (show (199999 : Nat) < numStrings by rw [hns]; omega),
      buildCorpus_get?
        (show (mtNext (mtInit 64)).1 % 200000 < numStrings from hns ▸ hj1lt)]
      at hchain
    have := corpusElem_injective (Option.some.inj hchain)
    exact hjne this.symm

/-- C3: corpus generation and shuffling are deterministic: the shuffled
ordering is a function of the seed constant alone, so any two generator
executions with equal seeds — in one process run or across re-runs —
produce identical shuffled corpora and identical pointer views. -/
theorem generator_deterministic (s₁ s₂ : Nat) (h : s₁ = s₂) :
    buildShuffled s₁ = buildShuffled s₂ ∧
    shuffledPtrsOf (buildShuffled s₁) = shuffledPtrsOf (buildShuffled s₂) := by
  subst h
  exact ⟨rfl, rfl⟩

/-- Witness for C3 at the seed constant 64 used by the source. -/
theorem generator_deterministic_witness :
    (64 : Nat) = 64 ∧
    (buildShuffled 64 = buildShuffled 64 ∧
      shuffledPtrsOf (buildShuffled 64) = shuffledPtrsOf (buildShuffled 64)) :=
  ⟨rfl, generator_deterministic 64 64 rfl⟩

/-- C6: `MillisecondsFromDeltaCounter` computes
`(finish - start) * 1000 / frequency`; for `finish ≥ start` and positive
frequency the result is non-negative, proportional to `finish - start` with
constant `1000 / frequency`, weakly decreasing in the frequency, and exactly
1000 ms on a delta of one full frequency worth of ticks. -/
theorem milliseconds_formula (freq start finish : ℤ)
    (h : start ≤ finish) (hf : 0 < freq) :
    MillisecondsFromDeltaCounter freq start finish
        = ((finish : ℚ) - (start : ℚ)) * 1000 / (freq : ℚ) ∧
    0 ≤ MillisecondsFromDeltaCounter freq start finish ∧
    MillisecondsFromDeltaCounter freq start finish
        = ((finish : ℚ) - (start : ℚ)) * (1000 / (freq : ℚ)) ∧
    (∀ freq2 : ℤ, freq ≤ freq2 →
      MillisecondsFromDeltaCounter freq2 start finish
        ≤ MillisecondsFromDeltaCounter freq start finish) ∧
    MillisecondsFromDeltaCounter freq 0 freq = 1000 := by
  have hsub : (0 : ℚ) ≤ (finish : ℚ) - (start : ℚ) := by
    have : (start : ℚ) ≤ (finish : ℚ) := by exact_mod_cast h
    linarith
  have hfq : (0 : ℚ) < (freq : ℚ) := by exact_mod_cast hf
  refine ⟨rfl, ?_, ?_, ?_, ?_⟩
  · exact div_nonneg (by positivity) (le_of_lt hfq)
  · unfold MillisecondsFromDeltaCounter
    rw [mul_div_assoc]
  · intro freq2 h2
    have hfq2 : (0 : ℚ) < (freq2 : ℚ) := by
      have : (0 : ℤ) < freq2 := lt_of_lt_of_le hf h2
      exact_mod_cast this
    have hle : (freq : ℚ) ≤ (freq2 : ℚ) := by exact_mod_cast h2
    unfold MillisecondsFromDeltaCounter
    gcongr
  · unfold MillisecondsFromDeltaCounter
    have hne : (freq : ℚ) ≠ 0 := ne_of_gt hfq
    field_simp

/-- Witness for C6 at `freq = 2`, `start = 1`, `finish = 5`. -/
theorem milliseconds_formula_witness :
    ((1 : ℤ) ≤ 5 ∧ (0 : ℤ) < 2) ∧
    (MillisecondsFromDeltaCounter 2 1 5
        = (((5 : ℤ) : ℚ) - ((1 : ℤ) : ℚ)) * 1000 / ((2 : ℤ) : ℚ) ∧
      0 ≤ MillisecondsFromDeltaCounter 2 1 5 ∧
      MillisecondsFromDeltaCounter 2 1 5
        = (((5 : ℤ) : ℚ) - ((1 : ℤ) : ℚ)) * (1000 / ((2 : ℤ) : ℚ)) ∧
      (∀ freq2 : ℤ, (2 : ℤ) ≤ freq2 →
        MillisecondsFromDeltaCounter freq2 1 5
          ≤ MillisecondsFromDeltaCounter 2 1 5) ∧
      MillisecondsFromDeltaCounter 2 0 2 = 1000) :=
  ⟨⟨by norm_num, by norm_num⟩,
    milliseconds_formula 2 1 5 (by norm_num) (by norm_num)⟩

/-- C7: `PrintTime` writes the description line, a `push_back` metric line,
a `sort` metric line and a trailing blank line; on the sample
`{label = "X", push_back = 1.5, sort = 2.25}` the text written is exactly
`"X:\n  push_back : 1.5 ms\n  sort      : 2.25 ms\n\n"`. -/
theorem printTime_format :
    PrintTime ⟨3 / 2, 9 / 4, "X"⟩
        = "X:\n  push_back : 1.5 ms\n  sort      : 2.25 ms\n\n" ∧
    ∀ p : PerfData, PrintTime p
        = p.Description ++ ":\n"
          ++ "  push_back : " ++ fmtDouble p.PushBackTimeMs ++ " ms\n"
          ++ "  sort      : " ++ fmtDouble p.SortTimeMs ++ " ms\n\n" :=
  ⟨by with_unfolding_all rfl, fun p => rfl⟩

theorem benchLoop_eq (freq : ℤ) (cs : Nat → ℤ × ℤ × ℤ × ℤ) :
    ∀ (calls : List (Strategy × String)) (k : Nat),
      benchLoop freq cs k calls
        = ((calls.enumFrom k).map
            fun kc => PrintTime (runOne freq cs kc.1 kc.2)).foldr
              (fun a b => a ++ b) ""
  | [], _ => rfl
  | c :: rest, k => by
    show PrintTime (runOne freq cs k c) ++ benchLoop freq cs (k + 1) rest = _
    rw [benchLoop_eq freq cs rest (k + 1)]
    rfl

/-- C8: `main` invokes the benchmark runner exactly six times — alternating
strategies, ATL (heap-backed) first, three iterations per strategy — and the
text written is precisely the concatenation, in call order, of each
invocation's own printed sample: each result is printed before the next run
starts, with no aggregation across iterations. -/
theorem main_six_alternating_runs (freq : ℤ) (cs : Nat → ℤ × ℤ × ℤ × ℤ) :
    mainCalls.length = 6 ∧
    mainCalls.map Prod.fst
      = [Strategy.atl, Strategy.stl, Strategy.atl, Strategy.stl,
         Strategy.atl, Strategy.stl] ∧
    (mainCalls.map Prod.fst).count Strategy.atl = 3 ∧
    (mainCalls.map Prod.fst).count Strategy.stl = 3 ∧
    mainBenchOutput freq cs
      = ((mainCalls.enum).map
          fun kc => PrintTime (runOne freq cs kc.1 kc.2)).foldr
            (fun a b => a ++ b) "" :=
  ⟨rfl, rfl, by decide, by decide, benchLoop_eq freq cs mainCalls 0⟩

/-- C9: the pointer view mirrors the shuffled corpus element-for-element —
same length, and the `i`-th pointer designates the `i`-th shuffled string —
and `main` passes the one view it built to all six benchmark invocations, so
every run receives the identical input sequence. -/
theorem view_identical_inputs :
    ptrsView.length = corpusShuffled.length ∧
    (∀ i : Nat, ptrsView.get? i = corpusShuffled.get? i) ∧
    mainRunInputs = List.replicate 6 ptrsView := by
  refine ⟨by simp [ptrsView, shuffledPtrsOf], fun i => ?_, rfl⟩
  show ((corpusShuffled.map cStr).get? i) = corpusShuffled.get? i
  rw [List.get?_map]
  cases corpusShuffled.get? i <;> rfl
